import Mathlib

/-!
Verification of the structured-matrix algebra layer in `mici/matrices.py`.

The development shallowly embeds the parts of the source needed by the
claims under scrutiny:

* exact-arithmetic linear algebra is modelled over `ℚ` with Mathlib
  matrices (`Matrix (Fin n) (Fin m) ℚ`); the floating-point backend of the
  source (LAPACK via numpy/scipy) is replaced by its exact semantics;
* `Mici.LU` models the packed pivoted-LU representation used by
  `DenseSquareMatrix` / `InverseLUFactoredSquareMatrix` and their
  `_scalar_multiply` rescalings;
* `Mici.LowRank` models `SquareLowRankUpdateMatrix` (its stored fields,
  `_construct_array`, `capacitance_matrix`, `inv` and `log_abs_det`);
* `Mici.Obj` models the object layer of the class hierarchy — one
  inductive family with a constructor per embedded class, the `T`
  (transpose) dispatch, the dense representation of each variant,
  `__matmul__` with its dimension check and `MatrixProduct` splicing, and
  the constructor validation of the low-rank-update subclasses.  Python
  object identity (the source's `x.T is x` checks) is modelled by
  `tReturnsSelf`, which records, per class, whether the source's `T`
  implementation returns `self` or builds a fresh object.

The file is organised as definitions first, theorems second.
-/

open scoped Matrix

namespace Mici

/-- Executable matrix inverse over a field: `(det A)⁻¹ • adjugate A`.
Over `ℚ` this coincides with Mathlib's noncomputable `A⁻¹` (see
`mInv_eq_inv`), and it is the exact-arithmetic semantics of the solver
objects the source returns from `inv` properties. -/
def mInv {n : ℕ} (A : Matrix (Fin n) (Fin n) ℚ) : Matrix (Fin n) (Fin n) ℚ :=
  (A.det)⁻¹ • A.adjugate

namespace LU

/-!
### Packed pivoted-LU factorisations and their rescaling

`DenseSquareMatrix` stores `lu_and_piv`, the output of
`scipy.linalg.lu_factor`: a packed square array holding the strictly
lower triangle of a unit lower-triangular factor `L` and the upper
triangle (diagonal included) of `U`, together with pivot indices.  The
factorisation contract is `P @ L @ U = A` for the permutation `P`
encoded by the pivots.  We model the pivots abstractly as an arbitrary
matrix `P` that is carried unchanged, which is exactly what
`_scalar_multiply` does with them.
-/

/-- `np.triu`: keep entries on or above the diagonal. -/
def triu {n : ℕ} (A : Matrix (Fin n) (Fin n) ℚ) : Matrix (Fin n) (Fin n) ℚ :=
  Matrix.of fun i j => if (i : ℕ) ≤ (j : ℕ) then A i j else 0

/-- The unit lower-triangular factor packed into an LU array: strictly
lower entries are taken from the packed array, the diagonal is 1. -/
def unitLower {n : ℕ} (lu : Matrix (Fin n) (Fin n) ℚ) : Matrix (Fin n) (Fin n) ℚ :=
  Matrix.of fun i j => if (j : ℕ) < (i : ℕ) then lu i j else if i = j then 1 else 0

/-- `(P, lu)` is a valid packed pivoted-LU factorisation of `A`. -/
def ValidLU {n : ℕ} (P lu A : Matrix (Fin n) (Fin n) ℚ) : Prop :=
  P * unitLower lu * triu lu = A

instance {n : ℕ} (P lu A : Matrix (Fin n) (Fin n) ℚ) : Decidable (ValidLU P lu A) := by
  unfold ValidLU; infer_instance

/-- `DenseSquareMatrix._scalar_multiply`, line 993 of the source:
`new_lu = old_lu + (scalar - 1) * np.triu(old_lu)`. -/
def scaleLU {n : ℕ} (scalar : ℚ) (lu : Matrix (Fin n) (Fin n) ℚ) : Matrix (Fin n) (Fin n) ℚ :=
  lu + (scalar - 1) • triu lu

/-- `InverseLUFactoredSquareMatrix._scalar_multiply`, line 1048 of the
source: `new_inv_lu = old_inv_lu - (scalar - 1) / scalar * np.triu(old_inv_lu)`. -/
def scaleInvLU {n : ℕ} (scalar : ℚ) (lu : Matrix (Fin n) (Fin n) ℚ) : Matrix (Fin n) (Fin n) ℚ :=
  lu - ((scalar - 1) / scalar) • triu lu

end LU

namespace LowRank

/-!
### `SquareLowRankUpdateMatrix` (source lines 1588-1724)

The object represents `square + sign * left @ inner @ right` for a
square base `square` (shape `n×n`), factors `left : n×k`, `right : k×n`,
inner matrix `inner : k×k` and `sign ∈ {+1, -1}`.  The constituent
matrices are arbitrary `Matrix` objects in the source; in exact
arithmetic they are determined by their dense representations, which is
what the fields below hold.  The `_capacitance_matrix` memoisation slot
is kept as an `Option`.
-/

structure SLRUM (n k : ℕ) where
  left_factor : Matrix (Fin n) (Fin k) ℚ
  right_factor : Matrix (Fin k) (Fin n) ℚ
  square : Matrix (Fin n) (Fin n) ℚ
  inner : Matrix (Fin k) (Fin k) ℚ
  capCache : Option (Matrix (Fin k) (Fin k) ℚ)
  sign : ℚ

variable {n k : ℕ}

/-- `SquareLowRankUpdateMatrix._construct_array` (lines 1682-1685):
`square_matrix.array + sign * left @ (inner @ right.array)`. -/
def toMatrix (M : SLRUM n k) : Matrix (Fin n) (Fin n) ℚ :=
  M.square + M.sign • (M.left_factor * (M.inner * M.right_factor))

/-- `SquareLowRankUpdateMatrix.capacitance_matrix` (lines 1687-1694):
computed as `inner.inv.array + right @ (square.inv @ left.array)` on
first access and memoised; a cached value is returned unchanged. -/
def capacitance (M : SLRUM n k) : Matrix (Fin k) (Fin k) ℚ :=
  match M.capCache with
  | some C => C
  | none => mInv M.inner + M.right_factor * (mInv M.square * M.left_factor)

/-- The capacitance-matrix formula `K⁻¹ + R @ S⁻¹ @ L` (the `Cap` of the
specification, with no dependence on `sign`). -/
def capFormula (M : SLRUM n k) : Matrix (Fin k) (Fin k) ℚ :=
  mInv M.inner + M.right_factor * (mInv M.square * M.left_factor)

/-- `SquareLowRankUpdateMatrix.inv` (lines 1711-1717): builds
`type(self)(square.inv @ left, right @ square.inv, square.inv,
capacitance_matrix.inv, inner.inv, -sign)`; by the positional order of
`__init__` the fourth argument is the new `inner_square_matrix` and the
fifth the new capacitance cache. -/
def inv (M : SLRUM n k) : SLRUM n k where
  left_factor := mInv M.square * M.left_factor
  right_factor := M.right_factor * mInv M.square
  square := mInv M.square
  inner := mInv (capacitance M)
  capCache := some (mInv M.inner)
  sign := -M.sign

/-- `SquareLowRankUpdateMatrix.log_abs_det` (lines 1719-1724):
`square.log_abs_det + inner.log_abs_det + capacitance_matrix.log_abs_det`.
The constituents are dense matrices whose `log_abs_det` is, in exact
arithmetic, the logarithm of the absolute determinant; `f` is that
(backend-supplied) scalar function, instantiated with
`fun q => Real.log |(q : ℝ)|` in the theorems. -/
def logAbsDet (f : ℚ → ℝ) (M : SLRUM n k) : ℝ :=
  f M.square.det + f M.inner.det + f (capacitance M).det

/-- A concrete downdate object: dimensions 1×1, `S = [[2]]`,
`L = K = R = [[1]]`, `sign = -1`.  It represents the matrix `[[1]]`. -/
def Mneg : SLRUM 1 1 :=
  { left_factor := !![1], right_factor := !![1], square := !![2], inner := !![1],
    capCache := none, sign := -1 }

/-- A concrete update object: dimensions 1×1, `S = K = L = R = [[1]]`,
`sign = +1`.  It represents the matrix `[[2]]`. -/
def Mpos : SLRUM 1 1 :=
  { left_factor := !![1], right_factor := !![1], square := !![1], inner := !![1],
    capCache := none, sign := 1 }

end LowRank

namespace Obj

/-!
### The object layer of the class hierarchy

One inductive constructor per embedded class, holding exactly the state
the Python object stores (including memoisation slots).  `MList` and
`MOpt` are the tuples-of-matrices and optional-matrix fields, kept in
the mutual block.
-/

/-- Kinds of Python exception raised by the modelled code paths. -/
inductive PyErr where
  | valueError
  | attributeError
  | runtimeError
  deriving DecidableEq

/-- A dense representation: shape plus entry function on `ℕ × ℕ`
(entries outside the shape are irrelevant padding). -/
structure Sig where
  rows : ℕ
  cols : ℕ
  entry : ℕ → ℕ → ℚ

/-- Embed a `Fin`-indexed matrix as a `Sig`. -/
def extF {r c : ℕ} (A : Matrix (Fin r) (Fin c) ℚ) : Sig :=
  ⟨r, c, fun i j =>
    if hi : i < r then if hj : j < c then A ⟨i, hi⟩ ⟨j, hj⟩ else 0 else 0⟩

def transposeSig (s : Sig) : Sig := ⟨s.cols, s.rows, fun i j => s.entry j i⟩

def scaleSig (a : ℚ) (s : Sig) : Sig := ⟨s.rows, s.cols, fun i j => a * s.entry i j⟩

/-- Matrix product of two representations; `none` on dimension mismatch
(where the numpy `@` of the source would fail). -/
def mulSig (a b : Sig) : Option Sig :=
  if a.cols = b.rows then
    some ⟨a.rows, b.cols, fun i j => ∑ m ∈ Finset.range a.cols, a.entry i m * b.entry m j⟩
  else none

def addSig (a b : Sig) : Option Sig :=
  if a.rows = b.rows ∧ a.cols = b.cols then
    some ⟨a.rows, a.cols, fun i j => a.entry i j + b.entry i j⟩
  else none

/-- Horizontal concatenation (`np.concatenate(..., axis=1)`). -/
def hcatSig (a b : Sig) : Option Sig :=
  if a.rows = b.rows then
    some ⟨a.rows, a.cols + b.cols, fun i j =>
      if j < a.cols then a.entry i j else b.entry i (j - a.cols)⟩
  else none

/-- Vertical concatenation (`np.concatenate(..., axis=0)`). -/
def vcatSig (a b : Sig) : Option Sig :=
  if a.cols = b.cols then
    some ⟨a.rows + b.rows, a.cols, fun i j =>
      if i < a.rows then a.entry i j else b.entry (i - a.rows) j⟩
  else none

/-- Block-diagonal concatenation (`scipy.linalg.block_diag`). -/
def dcatSig (a b : Sig) : Sig :=
  ⟨a.rows + b.rows, a.cols + b.cols, fun i j =>
    if i < a.rows then (if j < a.cols then a.entry i j else 0)
    else (if j < a.cols then 0 else b.entry (i - a.rows) (j - a.cols))⟩

/-- Representation of a product chain, head times rest, mirroring
`MatrixProduct._construct_array`.  Empty chains are unconstructible
through the source API (their shape access raises); they map to `none`.
Singleton chains (also unconstructible through `@`) represent their
single factor. -/
def chainProd : List (Option Sig) → Option Sig
  | [] => none
  | [s] => s
  | s :: rest => do mulSig (← s) (← chainProd rest)

def chainH : List (Option Sig) → Option Sig
  | [] => none
  | [s] => s
  | s :: rest => do hcatSig (← s) (← chainH rest)

def chainV : List (Option Sig) → Option Sig
  | [] => none
  | [s] => s
  | s :: rest => do vcatSig (← s) (← chainV rest)

def chainD : List (Option Sig) → Option Sig
  | [] => some ⟨0, 0, fun _ _ => 0⟩
  | s :: rest => do pure (dcatSig (← s) (← chainD rest))

/-- Representation of `square + sign * (L @ (K @ R))`, the
`SquareLowRankUpdateMatrix._construct_array` expression. -/
def lowRankSig (s l i r : Option Sig) (sign : ℤ) : Option Sig := do
  addSig (← s) (scaleSig (sign : ℚ) (← mulSig (← l) (← mulSig (← i) (← r))))

/-- `np.tril` / `np.triu` as applied by `TriangularMatrix.__init__`. -/
def maskTri {n : ℕ} (lower : Bool) (A : Matrix (Fin n) (Fin n) ℚ) :
    Matrix (Fin n) (Fin n) ℚ :=
  Matrix.of fun i j =>
    if (if lower then (j : ℕ) ≤ (i : ℕ) else (i : ℕ) ≤ (j : ℕ)) then A i j else 0

/-- The numeric backend interface needed by the embedded operations:
`scipy.linalg.lu_factor`, invoked by `DenseSquareMatrix.lu_and_piv` on
first access (and hence by its `T`).  Only its shape matters here, so
any function of this type is a legal backend. -/
structure Backend where
  luFactor : (n : ℕ) → Matrix (Fin n) (Fin n) ℚ → Matrix (Fin n) (Fin n) ℚ × List ℕ

mutual

/-- One constructor per embedded class of `matrices.py`, with the state
the constructed Python object stores. -/
inductive MObj where
  | identity (size : Option ℕ)
  | scaledIdentity (isPos : Bool) (scalar : ℚ) (size : Option ℕ)
  | diagonal (isPos : Bool) (diag : List ℚ)
  | triangular (n : ℕ) (arr : Matrix (Fin n) (Fin n) ℚ) (lower : Bool)
  | inverseTriangular (n : ℕ) (invArr : Matrix (Fin n) (Fin n) ℚ) (lower : Bool)
  | orthogonal (n : ℕ) (arr : Matrix (Fin n) (Fin n) ℚ)
  | scaledOrthogonal (scalar : ℚ) (n : ℕ) (orthArr : Matrix (Fin n) (Fin n) ℚ)
  | denseRectangular (r c : ℕ) (arr : Matrix (Fin r) (Fin c) ℚ)
  | denseSquare (n : ℕ) (arr : Matrix (Fin n) (Fin n) ℚ)
      (luPiv : Option (Matrix (Fin n) (Fin n) ℚ × List ℕ)) (luTransposed : Option Bool)
  | inverseLU (n : ℕ) (invArr : Matrix (Fin n) (Fin n) ℚ)
      (invLu : Matrix (Fin n) (Fin n) ℚ) (piv : List ℕ) (invLuTransposed : Bool)
  | denseSymmetric (n : ℕ) (arr : Matrix (Fin n) (Fin n) ℚ)
      (eigCache : Option ((Fin n → ℚ) × Matrix (Fin n) (Fin n) ℚ))
  | denseDefinite (isPos : Bool) (n : ℕ) (arr : Matrix (Fin n) (Fin n) ℚ)
      (factorCache : MOpt)
  | triangularFactoredDefinite (isPos : Bool) (factor : MObj) (sign : ℤ)
  | matrixProduct (factors : MList)
  | blockRow (blocks : MList)
  | blockColumn (blocks : MList)
  | squareBlockDiagonal (blocks : MList)
  | symmetricBlockDiagonal (isPos : Bool) (blocks : MList)
  | squareLowRank (leftF rightF squareM innerM : MObj) (capC : MOpt) (sign : ℤ)
  | symmetricLowRank (isPos : Bool) (factorM symmM innerM : MObj) (capC : MOpt) (sign : ℤ)

/-- A tuple of matrices (`MatrixProduct.matrices`, block lists). -/
inductive MList where
  | nil
  | cons (head : MObj) (tail : MList)

/-- An optional matrix-valued field (memoisation slots, optional
constructor arguments). -/
inductive MOpt where
  | none
  | some (val : MObj)

end

def MList.notNil : MList → Bool
  | .nil => false
  | .cons _ _ => true

def appendML : MList → MList → MList
  | .nil, l => l
  | .cons h t, l => .cons h (appendML t l)

def reverseML : MList → MList
  | .nil => .nil
  | .cons h t => appendML (reverseML t) (.cons h .nil)

mutual

/-- `shape[0]` of each variant (`None` = implicit size). -/
def rowsOf : MObj → Option ℕ
  | .identity s => s
  | .scaledIdentity _ _ s => s
  | .diagonal _ d => some d.length
  | .triangular n _ _ => some n
  | .inverseTriangular n _ _ => some n
  | .orthogonal n _ => some n
  | .scaledOrthogonal _ n _ => some n
  | .denseRectangular r _ _ => some r
  | .denseSquare n _ _ _ => some n
  | .inverseLU n _ _ _ _ => some n
  | .denseSymmetric n _ _ => some n
  | .denseDefinite _ n _ _ => some n
  | .triangularFactoredDefinite _ f _ => rowsOf f
  | .matrixProduct fs => headRows fs
  | .blockRow bs => headRows bs
  | .blockColumn bs => sumRows bs
  | .squareBlockDiagonal bs => sumRows bs
  | .symmetricBlockDiagonal _ bs => sumRows bs
  | .squareLowRank l _ _ _ _ _ => rowsOf l
  | .symmetricLowRank _ f _ _ _ _ => rowsOf f

/-- `shape[1]` of each variant (`None` = implicit size). -/
def colsOf : MObj → Option ℕ
  | .identity s => s
  | .scaledIdentity _ _ s => s
  | .diagonal _ d => some d.length
  | .triangular n _ _ => some n
  | .inverseTriangular n _ _ => some n
  | .orthogonal n _ => some n
  | .scaledOrthogonal _ n _ => some n
  | .denseRectangular _ c _ => some c
  | .denseSquare n _ _ _ => some n
  | .inverseLU n _ _ _ _ => some n
  | .denseSymmetric n _ _ => some n
  | .denseDefinite _ n _ _ => some n
  | .triangularFactoredDefinite _ f _ => rowsOf f
  | .matrixProduct fs => lastCols fs
  | .blockRow bs => sumCols bs
  | .blockColumn bs => headCols bs
  | .squareBlockDiagonal bs => sumRows bs
  | .symmetricBlockDiagonal _ bs => sumRows bs
  | .squareLowRank l _ _ _ _ _ => rowsOf l
  | .symmetricLowRank _ f _ _ _ _ => rowsOf f

def headRows : MList → Option ℕ
  | .nil => none
  | .cons h _ => rowsOf h

def headCols : MList → Option ℕ
  | .nil => none
  | .cons h _ => colsOf h

def lastCols : MList → Option ℕ
  | .nil => none
  | .cons h .nil => colsOf h
  | .cons _ (.cons h t) => lastCols (.cons h t)

def sumRows : MList → Option ℕ
  | .nil => some 0
  | .cons h t =>
    match rowsOf h, sumRows t with
    | Option.some a, Option.some b => some (a + b)
    | _, _ => none

def sumCols : MList → Option ℕ
  | .nil => some 0
  | .cons h t =>
    match colsOf h, sumCols t with
    | Option.some a, Option.some b => some (a + b)
    | _, _ => none

end

/-- `shape` as the `(rows, cols)` pair. -/
def shapeOf (M : MObj) : Option ℕ × Option ℕ := (rowsOf M, colsOf M)

mutual

/-- The `T` property of each embedded class.  Variants in a
`SymmetricMatrix` branch of the hierarchy return `self`; structural
variants build the transposed structure; `DenseSquareMatrix.T` first
forces the memoised LU factorisation (`self.lu_and_piv`, which invokes
the backend and records `_lu_transposed = False` when the slot was
empty) and flips the transposition flag (`not None` is `True` in
Python, covering the unusual state of a stored factorisation with no
stored flag). -/
def transpose (bk : Backend) : MObj → MObj
  | .identity s => .identity s
  | .scaledIdentity p c s => .scaledIdentity p c s
  | .diagonal p d => .diagonal p d
  | .triangular n a lower => .triangular n (maskTri (!lower) aᵀ) (!lower)
  | .inverseTriangular n a lower => .inverseTriangular n aᵀ (!lower)
  | .orthogonal n a => .orthogonal n aᵀ
  | .scaledOrthogonal c n a => .scaledOrthogonal c n aᵀ
  | .denseRectangular r c a => .denseRectangular c r aᵀ
  | .denseSquare n a lu luT =>
    match lu with
    | Option.none => .denseSquare n aᵀ (Option.some (bk.luFactor n a)) (Option.some true)
    | Option.some p => .denseSquare n aᵀ (Option.some p)
        (Option.some (match luT with | Option.some b => !b | Option.none => true))
  | .inverseLU n ia lu piv t => .inverseLU n iaᵀ lu piv (!t)
  | .denseSymmetric n a e => .denseSymmetric n a e
  | .denseDefinite p n a f => .denseDefinite p n a f
  | .triangularFactoredDefinite p f g => .triangularFactoredDefinite p f g
  | .matrixProduct fs => .matrixProduct (reverseML (transposeList bk fs))
  | .blockRow bs => .blockColumn (transposeList bk bs)
  | .blockColumn bs => .blockRow (transposeList bk bs)
  | .squareBlockDiagonal bs => .squareBlockDiagonal (transposeList bk bs)
  | .symmetricBlockDiagonal p bs => .symmetricBlockDiagonal p bs
  | .squareLowRank l r s i c g =>
    .squareLowRank (transpose bk r) (transpose bk l) (transpose bk s) (transpose bk i)
      (transposeOpt bk c) g
  | .symmetricLowRank p f s i c g => .symmetricLowRank p f s i c g

def transposeList (bk : Backend) : MList → MList
  | .nil => .nil
  | .cons h t => .cons (transpose bk h) (transposeList bk t)

def transposeOpt (bk : Backend) : MOpt → MOpt
  | .none => .none
  | .some m => .some (transpose bk m)

end

mutual

/-- Exact-arithmetic dense representation of each variant: the value of
`array` / `_construct_array`, with the backend solves replaced by exact
inverses.  `none` marks states where materialisation fails (implicit
size, empty composites, incompatible constituent shapes). -/
def reprOf : MObj → Option Sig
  | .identity s =>
    match s with
    | Option.none => none
    | Option.some m => some ⟨m, m, fun i j => if i = j then 1 else 0⟩
  | .scaledIdentity _ c s =>
    match s with
    | Option.none => none
    | Option.some m => some ⟨m, m, fun i j => if i = j then c else 0⟩
  | .diagonal _ d => some ⟨d.length, d.length, fun i j => if i = j then d.getD i 0 else 0⟩
  | .triangular _ a _ => some (extF a)
  | .inverseTriangular _ a lower => some (extF (mInv (maskTri lower a)))
  | .orthogonal _ a => some (extF a)
  | .scaledOrthogonal c _ a => some (extF (c • a))
  | .denseRectangular _ _ a => some (extF a)
  | .denseSquare _ a _ _ => some (extF a)
  | .inverseLU _ ia _ _ _ => some (extF (mInv ia))
  | .denseSymmetric _ a _ => some (extF a)
  | .denseDefinite _ _ a _ => some (extF a)
  | .triangularFactoredDefinite _ f g =>
    match reprOf f with
    | Option.some s => (mulSig s (transposeSig s)).map (scaleSig (g : ℚ))
    | Option.none => none
  | .matrixProduct fs => chainProd (reprList fs)
  | .blockRow bs => chainH (reprList bs)
  | .blockColumn bs => chainV (reprList bs)
  | .squareBlockDiagonal bs => chainD (reprList bs)
  | .symmetricBlockDiagonal _ bs => chainD (reprList bs)
  | .squareLowRank l r s i _ g => lowRankSig (reprOf s) (reprOf l) (reprOf i) (reprOf r) g
  | .symmetricLowRank _ f s i _ g =>
    lowRankSig (reprOf s) (reprOf f) (reprOf i) ((reprOf f).map transposeSig) g

def reprList : MList → List (Option Sig)
  | .nil => []
  | .cons h t => reprOf h :: reprList t

end

mutual

/-- Well-formedness of a constructed object: triangular arrays carry
the masking their constructor applied, symmetric dense arrays are
symmetric as documented, composite lists built by the constructors are
non-empty, constituents are recursively well-formed. -/
def wfB : MObj → Bool
  | .identity _ => true
  | .scaledIdentity _ _ _ => true
  | .diagonal _ _ => true
  | .triangular _ a lower => decide (maskTri lower a = a)
  | .inverseTriangular _ _ _ => true
  | .orthogonal _ _ => true
  | .scaledOrthogonal _ _ _ => true
  | .denseRectangular _ _ _ => true
  | .denseSquare _ _ _ _ => true
  | .inverseLU _ _ _ _ _ => true
  | .denseSymmetric _ a _ => decide (aᵀ = a)
  | .denseDefinite _ _ _ f => wfOpt f
  | .triangularFactoredDefinite _ f _ => wfB f
  | .matrixProduct fs => fs.notNil && wfL fs
  | .blockRow bs => bs.notNil && wfL bs
  | .blockColumn bs => bs.notNil && wfL bs
  | .squareBlockDiagonal bs => wfL bs
  | .symmetricBlockDiagonal _ bs => wfL bs
  | .squareLowRank l r s i c _ => wfB l && wfB r && wfB s && wfB i && wfOpt c
  | .symmetricLowRank _ f s i c _ => wfB f && wfB s && wfB i && wfOpt c

def wfL : MList → Bool
  | .nil => true
  | .cons h t => wfB h && wfL t

def wfOpt : MOpt → Bool
  | .none => true
  | .some m => wfB m

end

/-- Whether the class's `T` implementation returns `self` (the literal
same Python object) rather than constructing a fresh one.  This models
the outcome of the source's reference-identity checks `x.T is x`:
`SymmetricMatrix` and its descendants define `T` as `return self`
(lines 288-290, 1437-1439, 1811-1813), every other variant's `T` builds
a new object. -/
def tReturnsSelf : MObj → Bool
  | .identity _ => true
  | .scaledIdentity _ _ _ => true
  | .diagonal _ _ => true
  | .denseSymmetric _ _ _ => true
  | .denseDefinite _ _ _ _ => true
  | .triangularFactoredDefinite _ _ _ => true
  | .symmetricBlockDiagonal _ _ => true
  | .symmetricLowRank _ _ _ _ _ _ => true
  | .triangular _ _ _ => false
  | .inverseTriangular _ _ _ => false
  | .orthogonal _ _ => false
  | .scaledOrthogonal _ _ _ => false
  | .denseRectangular _ _ _ => false
  | .denseSquare _ _ _ _ => false
  | .inverseLU _ _ _ _ _ => false
  | .matrixProduct _ => false
  | .blockRow _ => false
  | .blockColumn _ => false
  | .squareBlockDiagonal _ => false
  | .squareLowRank _ _ _ _ _ _ => false

/-- Whether the class's `inv` implementation returns `self`: only
`IdentityMatrix.inv` does (lines 357-359); every other embedded
variant's `inv` constructs a new object. -/
def invReturnsSelf : MObj → Bool
  | .identity _ => true
  | _ => false

/-- Whether the class's `_scalar_multiply` implementation returns
`self`: none does — every implementation in the source ends in a
constructor call (for example lines 332-337, 440-441, 537-538, 619-620,
656-658, 760-763, 987-995, 1045-1051, 1126-1127, 1375-1377, 1675-1680,
1788-1793), so scalar multiplication always yields a fresh object. -/
def scalarMultiplyReturnsSelf : MObj → Bool
  | _ => false

/-- The variants lying in a `SymmetricMatrix` branch of the class
hierarchy (those whose `T` is inherited from or overridden as
`return self`). -/
def isSymmetricVariant : MObj → Bool
  | .identity _ => true
  | .scaledIdentity _ _ _ => true
  | .diagonal _ _ => true
  | .denseSymmetric _ _ _ => true
  | .denseDefinite _ _ _ _ => true
  | .triangularFactoredDefinite _ _ _ => true
  | .symmetricBlockDiagonal _ _ => true
  | .symmetricLowRank _ _ _ _ _ _ => true
  | _ => false

def isIdentityVariant : MObj → Bool
  | .identity _ => true
  | _ => false

def isProductVariant : MObj → Bool
  | .matrixProduct _ => true
  | _ => false

/-- Whether a factor list contains a nested `MatrixProduct` element. -/
def hasNestedProduct : MList → Bool
  | .nil => false
  | .cons h t => isProductVariant h || hasNestedProduct t

/-- The factor sequence contributed by the right operand of `@`:
`other.matrices` when it is a `MatrixProduct`, else the singleton
`(other,)`. -/
def tailFactors : MObj → MList
  | .matrixProduct ms => ms
  | m => .cons m .nil

/-- `Matrix.__matmul__` (lines 53-63) restricted to `Matrix` operands:
raise `ValueError` when the left operand has a known column count that
differs from the right operand's row count (a `None` row count also
differs from a known column count, as in Python `None != c`); otherwise
build the spliced `MatrixProduct`. -/
def matmul (A B : MObj) : Except PyErr MObj :=
  match colsOf A with
  | Option.some c =>
    if rowsOf B = some c then .ok (.matrixProduct (.cons A (tailFactors B)))
    else .error .valueError
  | Option.none => .ok (.matrixProduct (.cons A (tailFactors B)))

/-- `IdentityMatrix._construct_array` (lines 365-370): `RuntimeError`
on implicit size, else the identity array. -/
def identityConstructArray (size : Option ℕ) :
    Except PyErr ((m : ℕ) × Matrix (Fin m) (Fin m) ℚ) :=
  match size with
  | Option.none => .error .runtimeError
  | Option.some m => .ok ⟨m, 1⟩

/-- `IdentityMatrix.log_abs_det` (lines 372-374): returns `0.`
unconditionally — there is no implicit-size check on this path. -/
def identityLogAbsDet (_size : Option ℕ) : Except PyErr ℝ :=
  .ok 0

/-- `ScaledIdentityMatrix._construct_array` (lines 465-470):
`RuntimeError` on implicit size, else `scalar * identity`. -/
def scaledIdentityConstructArray (scalar : ℚ) (size : Option ℕ) :
    Except PyErr ((m : ℕ) × Matrix (Fin m) (Fin m) ℚ) :=
  match size with
  | Option.none => .error .runtimeError
  | Option.some m => .ok ⟨m, scalar • 1⟩

/-- `ScaledIdentityMatrix.log_abs_det` (lines 472-478): `RuntimeError`
on implicit size, else `shape[0] * log(abs(scalar))`; `f` is the
backend's scalar logarithm. -/
def scaledIdentityLogAbsDet (f : ℚ → ℝ) (scalar : ℚ) (size : Option ℕ) :
    Except PyErr ℝ :=
  match size with
  | Option.none => .error .runtimeError
  | Option.some m => .ok (m * f |scalar|)

/-- `SquareLowRankUpdateMatrix.__init__` (lines 1613-1662): shape
validation, `None`-to-identity substitution of the inner matrix, then
construction of the object. -/
def mkSquareLowRank (l r s : MObj) (inner : MOpt) (cap : MOpt) (sign : ℤ) :
    Except PyErr MObj :=
  let dOut := rowsOf l
  let dIn := colsOf l
  if rowsOf s ≠ dOut then .error .valueError
  else if rowsOf s ≠ colsOf s then .error .valueError
  else if ¬(rowsOf r = dIn ∧ colsOf r = dOut) then .error .valueError
  else
    match inner with
    | .none => .ok (.squareLowRank l r s (.identity dIn) cap sign)
    | .some im =>
      if ¬(rowsOf im = dIn ∧ colsOf im = dIn) then .error .valueError
      else .ok (.squareLowRank l r s im cap sign)

/-- `SymmetricLowRankUpdateMatrix.__init__` (lines 1752-1786), shared
with `PositiveDefiniteLowRankUpdateMatrix.__init__` (lines 1843-1873)
which adds no further validation of its own (`isPos` records which
subclass is being constructed).  The symmetry checks compare
`x.T is x` by reference identity, modelled by `tReturnsSelf`; when the
inner matrix is omitted (`None`), the attribute access
`inner_symmetric_matrix.T` on `None` raises `AttributeError` before the
inherited `None`-to-identity substitution can run.  On success the
superclass `__init__` validates shapes with `right = factor.T`. -/
def mkSymmetricLowRankCore (bk : Backend) (isPos : Bool) (factor symm : MObj)
    (inner : MOpt) (cap : MOpt) (sign : ℤ) : Except PyErr MObj :=
  if tReturnsSelf symm = false then .error .valueError
  else
    match inner with
    | .none => .error .attributeError
    | .some im =>
      if tReturnsSelf im = false then .error .valueError
      else
        match mkSquareLowRank factor (transpose bk factor) symm (.some im) cap sign with
        | .error e => .error e
        | .ok _ => .ok (.symmetricLowRank isPos factor symm im cap sign)

def mkSymmetricLowRank (bk : Backend) : MObj → MObj → MOpt → MOpt → ℤ → Except PyErr MObj :=
  mkSymmetricLowRankCore bk false

def mkPositiveDefiniteLowRank (bk : Backend) :
    MObj → MObj → MOpt → MOpt → ℤ → Except PyErr MObj :=
  mkSymmetricLowRankCore bk true

/-- A concrete backend instance (the claims below hold for every
backend; this one is used by witnesses). -/
def trivialBackend : Backend := ⟨fun _ A => (A, [])⟩

/-- Whether a successful `@` result is a `MatrixProduct` containing a
nested `MatrixProduct` element. -/
def resultNested : Except PyErr MObj → Bool
  | .ok (.matrixProduct fs) => hasNestedProduct fs
  | _ => false

end Obj

end Mici

namespace Mici

theorem mInv_eq_inv {n : ℕ} (A : Matrix (Fin n) (Fin n) ℚ) : mInv A = A⁻¹ := by
  rw [mInv, Matrix.inv_def, Ring.inverse_eq_inv]

namespace LU

theorem triu_triu {n : ℕ} (A : Matrix (Fin n) (Fin n) ℚ) : triu (triu A) = triu A := by
  ext i j
  simp only [triu, Matrix.of_apply]
  by_cases h : (i : ℕ) ≤ (j : ℕ) <;> simp [h]

theorem unitLower_scaleLU {n : ℕ} (a : ℚ) (lu : Matrix (Fin n) (Fin n) ℚ) :
    unitLower (scaleLU a lu) = unitLower lu := by
  ext i j
  simp only [unitLower, scaleLU, triu, Matrix.of_apply, Matrix.add_apply, Matrix.smul_apply]
  by_cases h : (j : ℕ) < (i : ℕ)
  · have h2 : ¬ (i : ℕ) ≤ (j : ℕ) := by omega
    simp [h, h2]
  · simp [h]

theorem triu_scaleLU {n : ℕ} (a : ℚ) (lu : Matrix (Fin n) (Fin n) ℚ) :
    triu (scaleLU a lu) = a • triu lu := by
  ext i j
  simp only [triu, scaleLU, Matrix.of_apply, Matrix.add_apply, Matrix.smul_apply]
  by_cases h : (i : ℕ) ≤ (j : ℕ)
  · simp only [h, if_true, smul_eq_mul]
    ring
  · simp [h]

theorem unitLower_scaleInvLU {n : ℕ} (a : ℚ) (lu : Matrix (Fin n) (Fin n) ℚ) :
    unitLower (scaleInvLU a lu) = unitLower lu := by
  ext i j
  simp only [unitLower, scaleInvLU, triu, Matrix.of_apply, Matrix.sub_apply, Matrix.smul_apply]
  by_cases h : (j : ℕ) < (i : ℕ)
  · have h2 : ¬ (i : ℕ) ≤ (j : ℕ) := by omega
    simp [h, h2]
  · simp [h]

theorem triu_scaleInvLU {n : ℕ} (a : ℚ) (ha : a ≠ 0) (lu : Matrix (Fin n) (Fin n) ℚ) :
    triu (scaleInvLU a lu) = a⁻¹ • triu lu := by
  ext i j
  simp only [triu, scaleInvLU, Matrix.of_apply, Matrix.sub_apply, Matrix.smul_apply]
  by_cases h : (i : ℕ) ≤ (j : ℕ)
  · simp only [h, if_true, smul_eq_mul]
    field_simp
    ring
  · simp [h]

/-- Rescaling the packed upper triangle preserves validity of the
factorisation for the rescaled array. -/
theorem validLU_scaleLU {n : ℕ} (a : ℚ) (P lu A : Matrix (Fin n) (Fin n) ℚ)
    (h : ValidLU P lu A) : ValidLU P (scaleLU a lu) (a • A) := by
  unfold ValidLU at h ⊢
  rw [unitLower_scaleLU, triu_scaleLU, Matrix.mul_smul, h]

/-- Dividing the packed upper triangle preserves validity of the
factorisation for the divided array. -/
theorem validLU_scaleInvLU {n : ℕ} (a : ℚ) (ha : a ≠ 0) (P lu A : Matrix (Fin n) (Fin n) ℚ)
    (h : ValidLU P lu A) : ValidLU P (scaleInvLU a lu) (a⁻¹ • A) := by
  unfold ValidLU at h ⊢
  rw [unitLower_scaleInvLU, triu_scaleInvLU a ha, Matrix.mul_smul, h]

end LU

namespace LowRank

variable {n k : ℕ}

/-- The represented matrix of the object returned by `inv`: always
`S⁻¹ - sign • S⁻¹ L Cap⁻¹ R S⁻¹`, for either sign. -/
theorem toMatrix_inv (M : SLRUM n k) :
    toMatrix (inv M) =
      mInv M.square -
        M.sign • (mInv M.square * M.left_factor * mInv (capacitance M) *
          (M.right_factor * mInv M.square)) := by
  simp only [toMatrix, inv]
  rw [sub_eq_add_neg, ← neg_smul]
  congr 1
  simp only [Matrix.mul_assoc]

/-- The matrix determinant lemma in the form used by the source, for an
update (`sign = +1`): `det (S + L K R) = det S * det K * det Cap`. -/
theorem det_update (S : Matrix (Fin n) (Fin n) ℚ) (L : Matrix (Fin n) (Fin k) ℚ)
    (K : Matrix (Fin k) (Fin k) ℚ) (R : Matrix (Fin k) (Fin n) ℚ)
    (hS : IsUnit S.det) (hK : IsUnit K.det) :
    (S + L * (K * R)).det = S.det * K.det * (K⁻¹ + R * (S⁻¹ * L)).det := by
  have h1 : S + L * (K * R) = S + (L * K) * R := by
    rw [Matrix.mul_assoc]
  rw [h1, Matrix.det_add_mul (L * K) R hS]
  have h2 : (1 + R * S⁻¹ * (L * K)) = (K⁻¹ + R * (S⁻¹ * L)) * K := by
    rw [Matrix.add_mul, Matrix.nonsing_inv_mul K hK]
    rw [Matrix.mul_assoc, Matrix.mul_assoc, Matrix.mul_assoc]
  rw [h2, Matrix.det_mul]
  ring

theorem capFormula_eq (M : SLRUM n k) :
    capFormula M = M.inner⁻¹ + M.right_factor * M.square⁻¹ * M.left_factor := by
  rw [capFormula, mInv_eq_inv, mInv_eq_inv, Matrix.mul_assoc]

/-- For `sign = +1` the object built by `inv` is a genuine two-sided
inverse of the represented matrix (Woodbury identity). -/
theorem mul_inv_eq_one (M : SLRUM n k) (hcap : capacitance M = capFormula M)
    (hS : M.square.det ≠ 0) (hK : M.inner.det ≠ 0)
    (hC : (capacitance M).det ≠ 0) (hs : M.sign = 1) :
    toMatrix M * toMatrix (inv M) = 1 := by
  have hSu : IsUnit M.square := (Matrix.isUnit_iff_isUnit_det _).2 (isUnit_iff_ne_zero.2 hS)
  have hKu : IsUnit M.inner := (Matrix.isUnit_iff_isUnit_det _).2 (isUnit_iff_ne_zero.2 hK)
  have hM1 : toMatrix M = M.square + M.left_factor * (M.inner * M.right_factor) := by
    rw [toMatrix, hs, one_smul]
  have hCapU : IsUnit (M.inner⁻¹ + M.right_factor * M.square⁻¹ * M.left_factor) := by
    rw [← capFormula_eq, ← hcap]
    exact (Matrix.isUnit_iff_isUnit_det _).2 (isUnit_iff_ne_zero.2 hC)
  have hinv : (toMatrix M)⁻¹ = toMatrix (inv M) := by
    rw [hM1, show M.square + M.left_factor * (M.inner * M.right_factor) =
          M.square + M.left_factor * M.inner * M.right_factor by rw [Matrix.mul_assoc],
        Matrix.add_mul_mul_inv_eq_sub _ _ _ _ hSu hKu hCapU, toMatrix_inv, hs, one_smul,
        hcap, capFormula_eq]
    simp only [mInv_eq_inv, Matrix.mul_assoc]
  have hdet : IsUnit (toMatrix M).det := by
    rw [hM1, det_update M.square M.left_factor M.inner M.right_factor
          (isUnit_iff_ne_zero.2 hS) (isUnit_iff_ne_zero.2 hK)]
    refine ((isUnit_iff_ne_zero.2 hS).mul (isUnit_iff_ne_zero.2 hK)).mul
      (isUnit_iff_ne_zero.2 ?_)
    rw [show M.inner⁻¹ + M.right_factor * (M.square⁻¹ * M.left_factor) =
          M.inner⁻¹ + M.right_factor * M.square⁻¹ * M.left_factor by rw [Matrix.mul_assoc]]
    rw [← capFormula_eq, ← hcap]
    exact hC
  rw [← hinv]
  exact Matrix.mul_nonsing_inv _ hdet

/-- For `sign = +1` the determinant of the represented matrix factors
as `det S * det K * det Cap` (matrix determinant lemma). -/
theorem det_toMatrix (M : SLRUM n k) (hcap : capacitance M = capFormula M)
    (hS : M.square.det ≠ 0) (hK : M.inner.det ≠ 0) (hs : M.sign = 1) :
    (toMatrix M).det = M.square.det * M.inner.det * (capacitance M).det := by
  rw [toMatrix, hs, one_smul,
    det_update M.square M.left_factor M.inner M.right_factor
      (isUnit_iff_ne_zero.2 hS) (isUnit_iff_ne_zero.2 hK),
    show M.inner⁻¹ + M.right_factor * (M.square⁻¹ * M.left_factor) = capFormula M by
      rw [capFormula]; simp only [mInv_eq_inv],
    ← hcap]

/-- For `sign = +1`, `log_abs_det` computes the true log absolute
determinant of the represented matrix. -/
theorem logAbsDet_correct (M : SLRUM n k) (hcap : capacitance M = capFormula M)
    (hS : M.square.det ≠ 0) (hK : M.inner.det ≠ 0)
    (hC : (capacitance M).det ≠ 0) (hs : M.sign = 1) :
    logAbsDet (fun q => Real.log |(q : ℝ)|) M = Real.log |((toMatrix M).det : ℝ)| := by
  rw [logAbsDet, det_toMatrix M hcap hS hK hs]
  push_cast
  rw [abs_mul, abs_mul]
  rw [Real.log_mul (by positivity) (by positivity),
    Real.log_mul (by positivity) (by positivity)]

/-!
### The `sign = -1` downdate breaks both identities

The capacitance matrix `K⁻¹ + R S⁻¹ L` omits the sign; the valid
Woodbury/determinant-lemma formulas for `S - L K R` would require
`K⁻¹ - R S⁻¹ L`.  The concrete object `Mneg` represents `[[1]]`, yet
`inv` returns an object representing `[[2/3]]` and `log_abs_det`
returns `log 2 + log 1 + log (3/2) = log 3` instead of `log 1 = 0`.
-/

theorem Mneg_toMatrix : toMatrix Mneg = !![1] := by
  ext i j
  fin_cases i; fin_cases j
  simp [toMatrix, Mneg, Matrix.mul_apply, Fin.sum_univ_one]
  norm_num

theorem Mneg_capacitance : capacitance Mneg = !![3/2] := by
  ext i j
  fin_cases i; fin_cases j
  simp [capacitance, Mneg, mInv, Matrix.mul_apply, Fin.sum_univ_one,
    Matrix.det_fin_one, Matrix.adjugate_fin_one]
  norm_num

theorem Mneg_inv_toMatrix : toMatrix (inv Mneg) = !![2/3] := by
  rw [toMatrix_inv, Mneg_capacitance]
  ext i j
  fin_cases i; fin_cases j
  simp [Mneg, mInv, Matrix.mul_apply, Fin.sum_univ_one,
    Matrix.det_fin_one, Matrix.adjugate_fin_one]
  norm_num

end LowRank

namespace Obj

theorem transposeList_appendML (bk : Backend) :
    (l1 l2 : MList) → transposeList bk (appendML l1 l2) =
      appendML (transposeList bk l1) (transposeList bk l2)
  | .nil, _ => rfl
  | .cons _ t, l2 => by
    simp only [appendML, transposeList, transposeList_appendML bk t l2]

theorem appendML_nil : (l : MList) → appendML l .nil = l
  | .nil => rfl
  | .cons _ t => by simp only [appendML, appendML_nil t]

theorem appendML_assoc : (l1 l2 l3 : MList) →
    appendML (appendML l1 l2) l3 = appendML l1 (appendML l2 l3)
  | .nil, _, _ => rfl
  | .cons _ t, l2, l3 => by simp only [appendML, appendML_assoc t l2 l3]

theorem reverseML_appendML : (l1 l2 : MList) →
    reverseML (appendML l1 l2) = appendML (reverseML l2) (reverseML l1)
  | .nil, l2 => by simp only [appendML, reverseML, appendML_nil]
  | .cons _ t, l2 => by
    simp only [appendML, reverseML, reverseML_appendML t l2, appendML_assoc]

theorem reverseML_reverseML : (l : MList) → reverseML (reverseML l) = l
  | .nil => rfl
  | .cons _ t => by
    simp only [reverseML, reverseML_appendML, reverseML_reverseML t, appendML]

theorem transposeList_reverseML (bk : Backend) :
    (l : MList) → transposeList bk (reverseML l) = reverseML (transposeList bk l)
  | .nil => rfl
  | .cons _ t => by
    simp only [reverseML, transposeList, transposeList_appendML,
      transposeList_reverseML bk t]

/-- The two reversals introduced by `MatrixProduct.T` cancel across a
double transpose. -/
theorem reverseML_tL_reverseML (bk : Backend) (l : MList) :
    reverseML (transposeList bk (reverseML (transposeList bk l))) =
      transposeList bk (transposeList bk l) := by
  rw [transposeList_reverseML, reverseML_reverseML]

theorem maskTri_double {n : ℕ} (lower : Bool) (a : Matrix (Fin n) (Fin n) ℚ) :
    maskTri lower ((maskTri (!lower) aᵀ)ᵀ) = maskTri lower a := by
  ext i j
  cases lower <;>
    simp only [maskTri, Bool.not_true, Bool.not_false, Matrix.transpose_apply,
      Matrix.of_apply, if_false, if_true, Bool.false_eq_true, Bool.true_eq_false] <;>
  · by_cases hij : (j : ℕ) ≤ (i : ℕ) <;> by_cases hji : (i : ℕ) ≤ (j : ℕ) <;>
      simp [hij, hji]

mutual

/-- Double transpose preserves the shape and the dense representation of
every embedded variant. -/
theorem doubleT_obj (bk : Backend) : (M : MObj) → wfB M = true →
    shapeOf (transpose bk (transpose bk M)) = shapeOf M ∧
    reprOf (transpose bk (transpose bk M)) = reprOf M
  | .identity _, _ => ⟨rfl, rfl⟩
  | .scaledIdentity _ _ _, _ => ⟨rfl, rfl⟩
  | .diagonal _ _, _ => ⟨rfl, rfl⟩
  | .triangular n a lower, h => by
    have hm : maskTri lower a = a := by
      simp only [wfB, decide_eq_true_eq] at h; exact h
    refine ⟨rfl, ?_⟩
    simp only [transpose, Bool.not_not, reprOf]
    rw [maskTri_double, hm]
  | .inverseTriangular n a lower, _ => by
    refine ⟨rfl, ?_⟩
    simp only [transpose, reprOf, Matrix.transpose_transpose, Bool.not_not]
  | .orthogonal n a, _ => by
    refine ⟨rfl, ?_⟩
    simp only [transpose, reprOf, Matrix.transpose_transpose]
  | .scaledOrthogonal c n a, _ => by
    refine ⟨rfl, ?_⟩
    simp only [transpose, reprOf, Matrix.transpose_transpose]
  | .denseRectangular r c a, _ => by
    refine ⟨rfl, ?_⟩
    simp only [transpose, reprOf, Matrix.transpose_transpose]
  | .denseSquare n a lu luT, _ => by
    cases lu <;>
    · refine ⟨rfl, ?_⟩
      simp only [transpose, reprOf, Matrix.transpose_transpose]
  | .inverseLU n ia lu piv t, _ => by
    refine ⟨rfl, ?_⟩
    simp only [transpose, reprOf, Matrix.transpose_transpose, Bool.not_not]
  | .denseSymmetric _ _ _, _ => ⟨rfl, rfl⟩
  | .denseDefinite _ _ _ _, _ => ⟨rfl, rfl⟩
  | .triangularFactoredDefinite _ _ _, _ => ⟨rfl, rfl⟩
  | .matrixProduct fs, h => by
    simp only [wfB, Bool.and_eq_true] at h
    obtain ⟨_, h2⟩ := h
    have IH := doubleT_list bk fs h2
    constructor
    · simp only [transpose]
      rw [reverseML_tL_reverseML]
      simp only [shapeOf, rowsOf, colsOf]
      rw [IH.2.1, IH.2.2.2.1]
    · simp only [transpose]
      rw [reverseML_tL_reverseML]
      simp only [reprOf]
      rw [IH.1]
  | .blockRow bs, h => by
    simp only [wfB, Bool.and_eq_true] at h
    obtain ⟨_, h2⟩ := h
    have IH := doubleT_list bk bs h2
    constructor
    · simp only [transpose, shapeOf, rowsOf, colsOf]
      rw [IH.2.1, IH.2.2.2.2.2]
    · simp only [transpose, reprOf]
      rw [IH.1]
  | .blockColumn bs, h => by
    simp only [wfB, Bool.and_eq_true] at h
    obtain ⟨_, h2⟩ := h
    have IH := doubleT_list bk bs h2
    constructor
    · simp only [transpose, shapeOf, rowsOf, colsOf]
      rw [IH.2.2.1, IH.2.2.2.2.1]
    · simp only [transpose, reprOf]
      rw [IH.1]
  | .squareBlockDiagonal bs, h => by
    simp only [wfB] at h
    have IH := doubleT_list bk bs h
    constructor
    · simp only [transpose, shapeOf, rowsOf, colsOf]
      rw [IH.2.2.2.2.1]
    · simp only [transpose, reprOf]
      rw [IH.1]
  | .symmetricBlockDiagonal _ _, _ => ⟨rfl, rfl⟩
  | .squareLowRank l r s i c g, h => by
    simp only [wfB] at h
    rw [Bool.and_eq_true, Bool.and_eq_true, Bool.and_eq_true, Bool.and_eq_true] at h
    obtain ⟨⟨⟨⟨hl, hr2⟩, hs2⟩, hi2⟩, -⟩ := h
    have IHl := doubleT_obj bk l hl
    have IHr := doubleT_obj bk r hr2
    have IHs := doubleT_obj bk s hs2
    have IHi := doubleT_obj bk i hi2
    constructor
    · simp only [transpose, shapeOf, rowsOf, colsOf]
      rw [show rowsOf (transpose bk (transpose bk l)) = rowsOf l from
        congrArg Prod.fst IHl.1]
    · simp only [transpose, reprOf]
      rw [IHl.2, IHr.2, IHs.2, IHi.2]
  | .symmetricLowRank _ _ _ _ _ _, _ => ⟨rfl, rfl⟩

theorem doubleT_list (bk : Backend) : (l : MList) → wfL l = true →
    reprList (transposeList bk (transposeList bk l)) = reprList l ∧
    headRows (transposeList bk (transposeList bk l)) = headRows l ∧
    headCols (transposeList bk (transposeList bk l)) = headCols l ∧
    lastCols (transposeList bk (transposeList bk l)) = lastCols l ∧
    sumRows (transposeList bk (transposeList bk l)) = sumRows l ∧
    sumCols (transposeList bk (transposeList bk l)) = sumCols l
  | .nil, _ => ⟨rfl, rfl, rfl, rfl, rfl, rfl⟩
  | .cons hd tl, h => by
    simp only [wfL, Bool.and_eq_true] at h
    obtain ⟨h1, h2⟩ := h
    have IHo := doubleT_obj bk hd h1
    have IHl := doubleT_list bk tl h2
    have hr : rowsOf (transpose bk (transpose bk hd)) = rowsOf hd :=
      congrArg Prod.fst IHo.1
    have hc : colsOf (transpose bk (transpose bk hd)) = colsOf hd :=
      congrArg Prod.snd IHo.1
    refine ⟨?_, ?_, ?_, ?_, ?_, ?_⟩
    · simp only [transposeList, reprList]
      rw [IHo.2, IHl.1]
    · simp only [transposeList, headRows]
      exact hr
    · simp only [transposeList, headCols]
      exact hc
    · cases tl with
      | nil => simp only [transposeList, lastCols]; exact hc
      | cons h2o t2 =>
        simp only [transposeList, lastCols]
        simpa only [transposeList, lastCols] using IHl.2.2.2.1
    · simp only [transposeList, sumRows]
      rw [hr, IHl.2.2.2.2.1]
    · simp only [transposeList, sumCols]
      rw [hc, IHl.2.2.2.2.2]

end

end Obj

/-!
## Claim theorems
-/

namespace LowRank

theorem Mpos_capacitance : capacitance Mpos = !![2] := by
  ext i j
  fin_cases i; fin_cases j
  simp [capacitance, Mpos, mInv, Matrix.mul_apply, Fin.sum_univ_one,
    Matrix.det_fin_one, Matrix.adjugate_fin_one]
  norm_num

end LowRank

section Claims

open LowRank LU Obj

/-- Claim C1 (as stated, counterexample): for the concrete
`SquareLowRankUpdateMatrix` with `S = [[2]]`, `L = K = R = [[1]]` and
`sign = -1`, the object `M.inv` does represent
`S⁻¹ - sign·S⁻¹·L·Cap⁻¹·R·S⁻¹ = [[2/3]]`, but `M` represents `[[1]]`,
so `M @ (M.inv @ x) = (2/3)·x ≠ x`: the two statements the claim calls
equivalent are not, and the returned object is not the inverse. -/
theorem C1_counterexample :
    Mneg.sign = -1 ∧
    toMatrix Mneg * toMatrix (LowRank.inv Mneg) ≠ 1 ∧
    toMatrix Mneg *ᵥ (toMatrix (LowRank.inv Mneg) *ᵥ ![1]) ≠ ![1] := by
  refine ⟨rfl, ?_, ?_⟩
  · rw [Mneg_toMatrix, Mneg_inv_toMatrix]
    intro hEq
    have h00 := congrFun (congrFun hEq 0) 0
    simp [Matrix.mul_apply, Fin.sum_univ_one, Matrix.one_apply] at h00
    norm_num at h00
  · rw [Mneg_toMatrix, Mneg_inv_toMatrix]
    intro hEq
    have h0 := congrFun hEq 0
    simp [Matrix.mulVec, Matrix.dotProduct, Fin.sum_univ_one] at h0
    norm_num at h0

/-- Claim C1 (amended): `M.inv` always represents
`S⁻¹ - sign·S⁻¹·L·Cap⁻¹·R·S⁻¹` with `Cap = K⁻¹ + R·S⁻¹·L`; when
`sign = +1` (and `S`, `K`, `Cap` are invertible, the capacitance slot
holding its defining formula), that object is the true inverse:
`M @ (M.inv @ x) = x` for every compatible `x`.  For `sign = -1` the
formula is not the inverse (the capacitance matrix omits the sign). -/
theorem C1_amended {n k : ℕ} (M : SLRUM n k)
    (hcap : capacitance M = capFormula M)
    (hS : M.square.det ≠ 0) (hK : M.inner.det ≠ 0)
    (hC : (capacitance M).det ≠ 0) (hs : M.sign = 1) :
    toMatrix (LowRank.inv M) =
      mInv M.square -
        M.sign • (mInv M.square * M.left_factor * mInv (capacitance M) *
          (M.right_factor * mInv M.square)) ∧
    toMatrix M * toMatrix (LowRank.inv M) = 1 ∧
    ∀ x : Fin n → ℚ, toMatrix M *ᵥ (toMatrix (LowRank.inv M) *ᵥ x) = x := by
  have hprod := mul_inv_eq_one M hcap hS hK hC hs
  refine ⟨toMatrix_inv M, hprod, fun x => ?_⟩
  rw [Matrix.mulVec_mulVec, hprod, Matrix.one_mulVec]

/-- Witness for C1: the amended claim applied to the concrete update
`Mpos` (1×1, `S = K = L = R = [[1]]`, `sign = +1`). -/
theorem C1_witness :
    (capacitance Mpos = capFormula Mpos ∧ Mpos.square.det ≠ 0 ∧
      Mpos.inner.det ≠ 0 ∧ (capacitance Mpos).det ≠ 0 ∧ Mpos.sign = 1) ∧
    (toMatrix (LowRank.inv Mpos) =
      mInv Mpos.square -
        Mpos.sign • (mInv Mpos.square * Mpos.left_factor * mInv (capacitance Mpos) *
          (Mpos.right_factor * mInv Mpos.square)) ∧
    toMatrix Mpos * toMatrix (LowRank.inv Mpos) = 1 ∧
    ∀ x : Fin 1 → ℚ, toMatrix Mpos *ᵥ (toMatrix (LowRank.inv Mpos) *ᵥ x) = x) := by
  have h1 : capacitance Mpos = capFormula Mpos := rfl
  have h2 : Mpos.square.det ≠ 0 := by simp [Mpos, Matrix.det_fin_one]
  have h3 : Mpos.inner.det ≠ 0 := by simp [Mpos, Matrix.det_fin_one]
  have h4 : (capacitance Mpos).det ≠ 0 := by
    rw [Mpos_capacitance]
    simp [Matrix.det_fin_one]
  exact ⟨⟨h1, h2, h3, h4, rfl⟩, C1_amended Mpos h1 h2 h3 h4 rfl⟩

/-- Claim C2 (as stated, counterexample): for the concrete downdate
`Mneg` (`sign = -1`), `log_abs_det` returns
`log 2 + log 1 + log (3/2) = log 3`, but the represented matrix is
`[[1]]`, whose log absolute determinant is `0`. -/
theorem C2_counterexample :
    logAbsDet (fun q => Real.log |(q : ℝ)|) Mneg ≠
      Real.log |((toMatrix Mneg).det : ℝ)| := by
  have h1 : Mneg.square.det = 2 := by simp [Mneg, Matrix.det_fin_one]
  have h2 : Mneg.inner.det = 1 := by simp [Mneg, Matrix.det_fin_one]
  have h3 : (capacitance Mneg).det = 3 / 2 := by
    rw [Mneg_capacitance]; simp [Matrix.det_fin_one]
  have h4 : (toMatrix Mneg).det = 1 := by
    rw [Mneg_toMatrix]; simp [Matrix.det_fin_one]
  rw [logAbsDet, h1, h2, h3, h4]
  norm_num
  rw [← Real.log_mul (by norm_num : (2 : ℝ) ≠ 0) (by norm_num : (3 : ℝ) / 2 ≠ 0)]
  norm_num

/-- Claim C2 (amended): `log_abs_det` is the sum of the base, inner and
capacitance log absolute determinants by construction, and when
`sign = +1` (with `S`, `K`, `Cap` invertible and the capacitance slot
holding its defining formula) this equals `log |det (S + L·K·R)|` by
the matrix determinant lemma.  For `sign = -1` the value is wrong (the
capacitance matrix omits the sign). -/
theorem C2_amended {n k : ℕ} (M : SLRUM n k)
    (hcap : capacitance M = capFormula M)
    (hS : M.square.det ≠ 0) (hK : M.inner.det ≠ 0)
    (hC : (capacitance M).det ≠ 0) (hs : M.sign = 1) :
    logAbsDet (fun q => Real.log |(q : ℝ)|) M =
      Real.log |(M.square.det : ℝ)| + Real.log |(M.inner.det : ℝ)| +
        Real.log |((capacitance M).det : ℝ)| ∧
    logAbsDet (fun q => Real.log |(q : ℝ)|) M =
      Real.log |((toMatrix M).det : ℝ)| :=
  ⟨rfl, logAbsDet_correct M hcap hS hK hC hs⟩

/-- Witness for C2: the amended claim applied to the concrete update
`Mpos`. -/
theorem C2_witness :
    (capacitance Mpos = capFormula Mpos ∧ Mpos.square.det ≠ 0 ∧
      Mpos.inner.det ≠ 0 ∧ (capacitance Mpos).det ≠ 0 ∧ Mpos.sign = 1) ∧
    (logAbsDet (fun q => Real.log |(q : ℝ)|) Mpos =
      Real.log |(Mpos.square.det : ℝ)| + Real.log |(Mpos.inner.det : ℝ)| +
        Real.log |((capacitance Mpos).det : ℝ)| ∧
    logAbsDet (fun q => Real.log |(q : ℝ)|) Mpos =
      Real.log |((toMatrix Mpos).det : ℝ)|) := by
  have h1 : capacitance Mpos = capFormula Mpos := rfl
  have h2 : Mpos.square.det ≠ 0 := by simp [Mpos, Matrix.det_fin_one]
  have h3 : Mpos.inner.det ≠ 0 := by simp [Mpos, Matrix.det_fin_one]
  have h4 : (capacitance Mpos).det ≠ 0 := by
    rw [Mpos_capacitance]
    simp [Matrix.det_fin_one]
  exact ⟨⟨h1, h2, h3, h4, rfl⟩, C2_amended Mpos h1 h2 h3 h4 rfl⟩

/-- Claim C3 (as stated, counterexample): when the left operand `A` is
itself a `MatrixProduct` chain and the right operand `B` is not,
`A @ B` is `MatrixProduct((A, B))` with the chain `A` nested whole as a
single element — not the flat concatenation of `A`'s factors with `B`. -/
theorem C3_counterexample :
    matmul
        (.matrixProduct (.cons (.identity (Option.some 2))
          (.cons (.identity (Option.some 2)) .nil)))
        (.identity (Option.some 2)) =
      .ok (.matrixProduct (.cons
        (.matrixProduct (.cons (.identity (Option.some 2))
          (.cons (.identity (Option.some 2)) .nil)))
        (.cons (.identity (Option.some 2)) .nil))) ∧
    resultNested (matmul
        (.matrixProduct (.cons (.identity (Option.some 2))
          (.cons (.identity (Option.some 2)) .nil)))
        (.identity (Option.some 2))) = true :=
  ⟨rfl, rfl⟩

/-- Claim C3 (amended): for shape-compatible operands, `A @ B` yields a
`MatrixProduct` whose factors are `A` followed by `B`'s factors when
`B` is a chain (the right operand's chain is spliced flat), or `A`
followed by `B` otherwise; the left operand is always included as a
single element, so it stays nested when it is itself a chain. -/
theorem C3_amended (A B : MObj)
    (hcompat : ∀ c : ℕ, colsOf A = Option.some c → rowsOf B = Option.some c) :
    matmul A B = .ok (.matrixProduct (.cons A (tailFactors B))) := by
  unfold matmul
  cases hA : colsOf A with
  | none => rfl
  | some c => simp [hcompat c hA]

/-- Witness for C3: a non-chain left operand against a chain right
operand splices the chain flat. -/
theorem C3_witness :
    (∀ c : ℕ, colsOf (MObj.identity (Option.some 2)) = Option.some c →
      rowsOf (MObj.matrixProduct (.cons (.identity (Option.some 2))
        (.cons (.identity (Option.some 2)) .nil))) = Option.some c) ∧
    matmul (MObj.identity (Option.some 2))
        (.matrixProduct (.cons (.identity (Option.some 2))
          (.cons (.identity (Option.some 2)) .nil))) =
      .ok (.matrixProduct (.cons (.identity (Option.some 2))
        (.cons (.identity (Option.some 2))
          (.cons (.identity (Option.some 2)) .nil)))) := by
  have hc : ∀ c : ℕ, colsOf (MObj.identity (Option.some 2)) = Option.some c →
      rowsOf (MObj.matrixProduct (.cons (.identity (Option.some 2))
        (.cons (.identity (Option.some 2)) .nil))) = Option.some c := by
    intro c hic
    have : c = 2 := by
      simpa [colsOf] using hic.symm
    rw [this]
    rfl
  exact ⟨hc, C3_amended _ _ hc⟩

/-- Claim C4 (as stated, counterexample): `IdentityMatrix.log_abs_det`
does not fail for an identity of unspecified size — it returns `0`
unconditionally. -/
theorem C4_counterexample : identityLogAbsDet Option.none = .ok 0 := rfl

/-- Claim C4 (amended): materialising a dense array fails with
`RuntimeError` for both `IdentityMatrix` and `ScaledIdentityMatrix` of
unspecified size, and `ScaledIdentityMatrix.log_abs_det` fails too; but
`IdentityMatrix.log_abs_det` succeeds and returns `0` regardless of the
size being unspecified. -/
theorem C4_amended (c : ℚ) (f : ℚ → ℝ) :
    identityConstructArray Option.none = .error .runtimeError ∧
    scaledIdentityConstructArray c Option.none = .error .runtimeError ∧
    scaledIdentityLogAbsDet f c Option.none = .error .runtimeError ∧
    identityLogAbsDet Option.none = .ok 0 :=
  ⟨rfl, rfl, rfl, rfl⟩

/-- Claim C5: when the left operand's column count is known and the
right operand's row count differs from it (including an unknown row
count, which Python's `None != c` treats as different), `@` raises a
dimension-mismatch `ValueError` and returns no result. -/
theorem C5_dimension_check (A B : MObj) (c : ℕ)
    (hc : colsOf A = Option.some c) (hne : rowsOf B ≠ Option.some c) :
    matmul A B = .error .valueError := by
  unfold matmul
  rw [hc]
  exact if_neg hne

/-- Witness for C5: a 2-column operand against a 3-row operand. -/
theorem C5_witness :
    (colsOf (MObj.identity (Option.some 2)) = Option.some 2 ∧
      rowsOf (MObj.identity (Option.some 3)) ≠ Option.some 2) ∧
    matmul (MObj.identity (Option.some 2)) (MObj.identity (Option.some 3)) =
      .error .valueError :=
  ⟨⟨rfl, by decide⟩,
    C5_dimension_check _ _ 2 rfl (by decide)⟩

/-- Claim C6: rescaling a packed LU factorisation as
`U' = U + (a-1)·triu(U)` (with pivots and the strict lower triangle
unchanged) turns a valid factorisation of `A` into a valid
factorisation of `a·A`; dually, the inverse-LU rescaling
`U' = U - ((a-1)/a)·triu(U)` yields a valid factorisation of `A/a`. -/
theorem C6_lu_rescaling {n : ℕ} (a : ℚ) (P lu A invlu B : Matrix (Fin n) (Fin n) ℚ)
    (ha : a ≠ 0) (h1 : ValidLU P lu A) (h2 : ValidLU P invlu B) :
    ValidLU P (scaleLU a lu) (a • A) ∧
    ValidLU P (scaleInvLU a invlu) (a⁻¹ • B) :=
  ⟨validLU_scaleLU a P lu A h1, validLU_scaleInvLU a ha P invlu B h2⟩

/-- Witness for C6: the 1×1 factorisation `1 · L(2) · U(2) = [[2]]`
rescaled by `a = 3`. -/
theorem C6_witness :
    ((3 : ℚ) ≠ 0 ∧ ValidLU 1 !![(2 : ℚ)] !![(2 : ℚ)]) ∧
    (ValidLU 1 (scaleLU 3 !![(2 : ℚ)]) ((3 : ℚ) • !![(2 : ℚ)]) ∧
      ValidLU 1 (scaleInvLU 3 !![(2 : ℚ)]) ((3 : ℚ)⁻¹ • !![(2 : ℚ)])) := by
  have hv : ValidLU 1 !![(2 : ℚ)] !![(2 : ℚ)] := by
    unfold ValidLU
    ext i j
    fin_cases i; fin_cases j
    simp [LU.unitLower, LU.triu, Matrix.mul_apply, Fin.sum_univ_one]
  exact ⟨⟨by norm_num, hv⟩,
    C6_lu_rescaling 3 1 !![(2 : ℚ)] !![(2 : ℚ)] !![(2 : ℚ)] !![(2 : ℚ)]
      (by norm_num) hv hv⟩

/-- Claim C7: for every well-formed object of every embedded structural
variant and every backend, the double transpose `M.T.T` has the same
shape and the same dense representation as `M`. -/
theorem C7_double_transpose (bk : Backend) (M : MObj) (h : wfB M = true) :
    shapeOf (transpose bk (transpose bk M)) = shapeOf M ∧
    reprOf (transpose bk (transpose bk M)) = reprOf M :=
  doubleT_obj bk M h

/-- Witness for C7: a concrete lower-triangular 2×2 object. -/
theorem C7_witness :
    wfB (MObj.triangular 2 !![(1 : ℚ), 0; 2, 3] true) = true ∧
    (shapeOf (transpose trivialBackend (transpose trivialBackend
        (MObj.triangular 2 !![(1 : ℚ), 0; 2, 3] true))) =
      shapeOf (MObj.triangular 2 !![(1 : ℚ), 0; 2, 3] true) ∧
    reprOf (transpose trivialBackend (transpose trivialBackend
        (MObj.triangular 2 !![(1 : ℚ), 0; 2, 3] true))) =
      reprOf (MObj.triangular 2 !![(1 : ℚ), 0; 2, 3] true)) := by
  have hw : wfB (MObj.triangular 2 !![(1 : ℚ), 0; 2, 3] true) = true := by
    simp only [wfB, decide_eq_true_eq]
    ext i j
    fin_cases i <;> fin_cases j <;> simp [maskTri]
  exact ⟨hw, C7_double_transpose trivialBackend _ hw⟩

/-- Claim C8 (as stated, counterexample): constructing a
`PositiveDefiniteLowRankUpdateMatrix` over the base `Diagonal([-1])` —
a symmetric matrix that is not positive definite (its diagonal entry is
negative) — succeeds: no positive-definiteness validation happens at
construction time. -/
theorem C8_counterexample :
    mkPositiveDefiniteLowRank trivialBackend
        (.denseRectangular 1 1 !![1]) (.diagonal false [-1])
        (.some (.identity (Option.some 1))) .none 1 =
      .ok (.symmetricLowRank true (.denseRectangular 1 1 !![1])
        (.diagonal false [-1]) (.identity (Option.some 1)) .none 1) ∧
    (reprOf (MObj.diagonal false [-1])).map (fun s => s.entry 0 0) =
      Option.some (-1) :=
  ⟨rfl, rfl⟩

/-- Claim C8 (amended): the symmetric and positive-definite low-rank
update constructors reject a base or supplied inner matrix whose class
does not implement `T` as returning the identical object (the
reference-identity symmetry check); the right factor is always the
transpose of the left factor by construction and cannot be
mis-supplied; positive-definiteness of base and inner matrices is
trusted, not validated. -/
theorem C8_amended (bk : Backend) (f s im : MObj) (inn cap : MOpt) (g : ℤ) :
    (tReturnsSelf s = false →
      mkSymmetricLowRank bk f s inn cap g = .error .valueError ∧
      mkPositiveDefiniteLowRank bk f s inn cap g = .error .valueError) ∧
    (tReturnsSelf s = true → tReturnsSelf im = false →
      mkSymmetricLowRank bk f s (.some im) cap g = .error .valueError ∧
      mkPositiveDefiniteLowRank bk f s (.some im) cap g = .error .valueError) := by
  constructor
  · intro h
    simp [mkSymmetricLowRank, mkPositiveDefiniteLowRank, mkSymmetricLowRankCore, h]
  · intro h1 h2
    simp [mkSymmetricLowRank, mkPositiveDefiniteLowRank, mkSymmetricLowRankCore, h1, h2]

/-- Witness for C8: a triangular (non-symmetric-typed) base is
rejected, and so is a triangular inner matrix next to a symmetric
base. -/
theorem C8_witness :
    (tReturnsSelf (MObj.triangular 1 !![(1 : ℚ)] true) = false ∧
      tReturnsSelf (MObj.diagonal false [1]) = true) ∧
    (mkSymmetricLowRank trivialBackend (.denseRectangular 1 1 !![1])
        (.triangular 1 !![(1 : ℚ)] true) .none .none 1 = .error .valueError ∧
      mkPositiveDefiniteLowRank trivialBackend (.denseRectangular 1 1 !![1])
        (.triangular 1 !![(1 : ℚ)] true) .none .none 1 = .error .valueError) ∧
    (mkSymmetricLowRank trivialBackend (.denseRectangular 1 1 !![1])
        (.diagonal false [1])
        (.some (.triangular 1 !![(1 : ℚ)] true)) .none 1 = .error .valueError ∧
      mkPositiveDefiniteLowRank trivialBackend (.denseRectangular 1 1 !![1])
        (.diagonal false [1])
        (.some (.triangular 1 !![(1 : ℚ)] true)) .none 1 = .error .valueError) :=
  ⟨⟨rfl, rfl⟩,
    (C8_amended trivialBackend (.denseRectangular 1 1 !![1])
      (.triangular 1 !![(1 : ℚ)] true) (.triangular 1 !![(1 : ℚ)] true)
      .none .none 1).1 rfl,
    (C8_amended trivialBackend (.denseRectangular 1 1 !![1])
      (.diagonal false [1]) (.triangular 1 !![(1 : ℚ)] true)
      .none .none 1).2 rfl rfl⟩

/-- Claim C9 (as stated, counterexample): not every transform returns a
new instance — `DiagonalMatrix.T` (inherited `SymmetricMatrix.T`)
returns `self`, and `IdentityMatrix.inv` returns `self`. -/
theorem C9_counterexample :
    transpose trivialBackend (MObj.diagonal false [1, 2]) =
      MObj.diagonal false [1, 2] ∧
    tReturnsSelf (MObj.diagonal false [1, 2]) = true ∧
    invReturnsSelf (MObj.identity Option.none) = true :=
  ⟨rfl, rfl, rfl⟩

/-- Claim C9 (amended): scalar multiplication always returns a fresh
instance; transpose returns the same instance exactly for the
symmetric-typed variants (whose `T` is `return self`), and inversion
returns the same instance exactly for the identity matrix; all other
transforms build new objects. -/
theorem C9_amended (M : MObj) :
    scalarMultiplyReturnsSelf M = false ∧
    tReturnsSelf M = isSymmetricVariant M ∧
    invReturnsSelf M = isIdentityVariant M := by
  refine ⟨rfl, ?_, ?_⟩ <;> cases M <;> rfl

/-- Claim C10: constructing a `SymmetricLowRankUpdateMatrix` or
`PositiveDefiniteLowRankUpdateMatrix` with the inner matrix omitted
(`None`) raises `AttributeError` from the symmetry check
`inner_symmetric_matrix.T` on `None` (given a base that passes the
preceding symmetry check), instead of substituting an identity inner
matrix: the `None`-to-identity fallback of the superclass is
unreachable for these two subclasses. -/
theorem C10_none_inner (bk : Backend) (f s : MObj) (cap : MOpt) (g : ℤ)
    (h : tReturnsSelf s = true) :
    mkSymmetricLowRank bk f s .none cap g = .error .attributeError ∧
    mkPositiveDefiniteLowRank bk f s .none cap g = .error .attributeError := by
  unfold mkSymmetricLowRank mkPositiveDefiniteLowRank mkSymmetricLowRankCore
  rw [h]
  exact ⟨rfl, rfl⟩

/-- Witness for C10: omitting the inner matrix over a diagonal base. -/
theorem C10_witness :
    tReturnsSelf (MObj.diagonal false [1]) = true ∧
    (mkSymmetricLowRank trivialBackend (.denseRectangular 1 1 !![1])
        (.diagonal false [1]) .none .none 1 = .error .attributeError ∧
      mkPositiveDefiniteLowRank trivialBackend (.denseRectangular 1 1 !![1])
        (.diagonal false [1]) .none .none 1 = .error .attributeError) :=
  ⟨rfl, C10_none_inner trivialBackend (.denseRectangular 1 1 !![1])
    (.diagonal false [1]) .none 1 rfl⟩

end Claims

end Mici
